import Mathlib

/-!
Verification of the separation-pair extraction pipeline of
`src/graph_collator/spqr_asmviz.cpp` (MetagenomeScope).

The C++ program parses a list of oriented contig links into an undirected
graph, splits it into connected components, builds a BC-tree per component,
and for each biconnected block runs a cut-vertex shortcut and an SPQR-tree
based separation-pair extraction.  The functions below are shallow
embeddings of the corresponding C++ functions; node identities are the
original-graph integer ids (the C++ code maps skeleton or BC-tree nodes to
the original graph through sk2orig / bc.original before any id is stored,
so the embeddings work directly on original ids).
-/

/-- The string constants used by the C++ program for skeleton types. -/
def strS : String := "S"

/-- Type string of a Parallel skeleton. -/
def strP : String := "P"

/-- Type string of a Rigid skeleton. -/
def strR : String := "R"

/-- The default value of `res` in `getTypeString` (spqr_asmviz.cpp:166),
spelled "unkown" in the source. -/
def strUnkown : String := "unkown"

/-- Embedding of `getTypeString` (spqr_asmviz.cpp:165-180).  The switch on
the integer type value maps 0 to S, 1 to P, 2 to R and leaves the
initial value "unkown" for anything else; there is no error path. -/
def getTypeString (type : Int) : String :=
  if type = 0 then strS
  else if type = 1 then strP
  else if type = 2 then strR
  else strUnkown

/-- An edge of an SPQR skeleton graph, with endpoints already translated to
original-graph ids via the sk2orig map, and the isVirtual flag
(spqr_asmviz.cpp:253-313 reads exactly this data from each edge). -/
structure SkEdge where
  src : Nat
  tgt : Nat
  virt : Bool
deriving DecidableEq

/-- A skeleton graph of an SPQR tree: its nodes (translated to
original-graph ids via sk2orig, in forall_nodes order, i.e. the allnodes
array of spqr_asmviz.cpp:262-268) and its edges in forall_edges order. -/
structure Skeleton where
  nodes : List Nat
  edges : List SkEdge
deriving DecidableEq

/-- The virtual-edge pairs pushed by the R branch (spqr_asmviz.cpp:273-276)
and by the first half of the S branch (spqr_asmviz.cpp:297-299): for each
virtual edge, the pair (source, target). -/
def virtualPairs : List SkEdge → List (Nat × Nat)
  | [] => []
  | e :: es => (if e.virt then [(e.src, e.tgt)] else []) ++ virtualPairs es

/-- The P-branch scan (spqr_asmviz.cpp:281-290): walk the edges counting
virtual ones; on the virtual edge that brings the count above 1, push its
pair and break.  `cnt` is the running virtualCount. -/
def pScan : List SkEdge → Nat → Option (Nat × Nat)
  | [], _ => none
  | e :: es, cnt =>
    if e.virt then
      if cnt + 1 > 1 then some (e.src, e.tgt) else pScan es (cnt + 1)
    else pScan es cnt

/-- The adjacency map built by the S branch (spqr_asmviz.cpp:296-303).  The
else branch of the if is a single statement, so the second assignment
`adjacent[(target, source)] = true` runs for every edge, virtual ones
included; only real edges record the (source, target) direction. -/
def sAdj : List SkEdge → List (Nat × Nat)
  | [] => []
  | e :: es => (if e.virt then [] else [(e.src, e.tgt)]) ++ ((e.tgt, e.src) :: sAdj es)

/-- The pairwise non-adjacency scan of the S branch (spqr_asmviz.cpp:307-310):
for every index pair i < j over allnodes, the pair is pushed whenever
either direction is absent from the adjacency map. -/
def sScanPairs (allnodes : List Nat) (adj : List (Nat × Nat)) : List (Nat × Nat) :=
  (List.range allnodes.length).flatMap fun i =>
    (List.range allnodes.length).filterMap fun j =>
      if i < j then
        if (allnodes.getD i 0, allnodes.getD j 0) ∉ adj ∨
           (allnodes.getD j 0, allnodes.getD i 0) ∉ adj
        then some (allnodes.getD i 0, allnodes.getD j 0) else none
      else none

/-- Embedding of `findTwoVertexCuts` (spqr_asmviz.cpp:253-313).  `pairs` is
the global pairs vector the C++ code appends to; the function returns its
new value.  The R branch pushes every virtual edge pair; the P branch
pushes the second virtual edge pair and stops; the S branch pushes every
virtual edge pair and then every non-adjacent index pair; any other type
string falls through all branches and pushes nothing. -/
def findTwoVertexCuts (sk : Skeleton) (type : String) (pairs : List (Nat × Nat)) :
    List (Nat × Nat) :=
  if type = strR then pairs ++ virtualPairs sk.edges
  else if type = strP then
    pairs ++ (match pScan sk.edges 0 with
      | some p => [p]
      | none => [])
  else if type = strS then
    pairs ++ virtualPairs sk.edges ++ sScanPairs sk.nodes (sAdj sk.edges)
  else pairs

/-- Embedding of `getCutVertexPair` (spqr_asmviz.cpp:199-239).  Each entry
of `incoming` is, for one incoming BC-tree edge, the value
`bc.original(GC.original(bc.cutVertex(src, src)))` of its source endpoint
(`none` models a null node); `outgoing` likewise holds the target
endpoints of the outgoing BC-tree edges.  The two-outgoing branch of the
source reads `out1` for both endpoints (spqr_asmviz.cpp:223-224, `out2`
is assigned but never used), which the embedding reproduces. -/
def getCutVertexPair (bType : Nat) (incoming outgoing : List (Option Nat))
    (pairs : List (Nat × Nat)) : List (Nat × Nat) :=
  if bType ≠ 0 then pairs
  else if incoming.length + outgoing.length = 2 then
    let n12 : Option Nat × Option Nat :=
      if incoming.length = 2 then
        (incoming.head?.join, incoming.getLast?.join)
      else if outgoing.length = 2 then
        (outgoing.head?.join, outgoing.head?.join)
      else
        (outgoing.head?.join, incoming.head?.join)
    match n12 with
    | (some a, some b) => pairs ++ [(a, b)]
    | _ => pairs
  else pairs

/-- Data of one BC-tree node as the main loop (spqr_asmviz.cpp:493-590)
reads it: its typeOfBNode value, the eligibility data computed from its
GraphCopy, its member-contig ids from getBiComponent, the far cut-vertex
ids of its incident BC-tree edges (inputs of getCutVertexPair), and the
skeletons of its SPQR tree with their typeOf values in tree order. -/
structure Block where
  bNodeType : Nat
  biconnected : Bool
  nrEdges : Nat
  loopfree : Bool
  members : List Nat
  incoming : List (Option Nat)
  outgoing : List (Option Nat)
  skeletons : List (Skeleton × Int)
deriving DecidableEq

/-- The mutable state the main loop threads across BC-tree nodes: the
global `pairs` vector (spqr_asmviz.cpp:27), the shared `memberNodes`
variable (spqr_asmviz.cpp:468), and the records written to the output
file so far, each a pair together with the member list printed after it
(spqr_asmviz.cpp:579-587, ids in place of the intid2contig names, which
is injective on allocated ids). -/
structure LoopState where
  pairs : List (Nat × Nat)
  memberNodes : List Nat
  output : List ((Nat × Nat) × List Nat)
deriving DecidableEq

/-- One iteration of the main loop over BC-tree nodes
(spqr_asmviz.cpp:493-590).  Non-B nodes are skipped; for a B node,
memberNodes is reassigned, then the eligibility test
`!biconnected || nrEdges <= 2 || !loopfree` runs and its `continue`
(spqr_asmviz.cpp:510) skips the rest of the iteration - in particular
`getCutVertexPair` (spqr_asmviz.cpp:521) runs only after the test passes.
For an eligible block the shortcut pairs and then every skeleton's
findTwoVertexCuts pairs are appended to the global pairs vector, all
pairs are printed with the current memberNodes, and pairs is cleared. -/
def processBlock (st : LoopState) (b : Block) : LoopState :=
  if b.bNodeType = 0 then
    let st1 : LoopState := { st with memberNodes := b.members }
    if ¬ b.biconnected ∨ b.nrEdges ≤ 2 ∨ ¬ b.loopfree then st1
    else
      let pairs1 := getCutVertexPair b.bNodeType b.incoming b.outgoing st1.pairs
      let pairs2 := b.skeletons.foldl
        (fun ps s => findTwoVertexCuts s.1 (getTypeString s.2) ps) pairs1
      { pairs := [],
        memberNodes := b.members,
        output := st1.output ++ pairs2.map (fun p => (p, b.members)) }
  else st

/-- The whole traversal of BC-tree nodes, starting from the initial state
(empty global pairs vector, empty memberNodes, empty output file). -/
def mainLoop (blocks : List Block) : LoopState :=
  blocks.foldl processBlock { pairs := [], memberNodes := [], output := [] }

/-- Specification-side per-block pair list: the pairs a block contributes
when processed with an empty pairs vector (shortcut pairs first, then
each skeleton's pairs).  Ineligible and non-B nodes contribute nothing. -/
def blockPairs (b : Block) : List (Nat × Nat) :=
  if b.bNodeType = 0 ∧ (b.biconnected ∧ ¬ b.nrEdges ≤ 2 ∧ b.loopfree) then
    b.skeletons.foldl (fun ps s => findTwoVertexCuts s.1 (getTypeString s.2) ps)
      (getCutVertexPair b.bNodeType b.incoming b.outgoing [])
  else []

/-- Specification-side records of one block: each of its pairs tagged with
that same block's member list, as section 6 of the spec requires of the
output format. -/
def blockRecords (b : Block) : List ((Nat × Nat) × List Nat) :=
  (blockPairs b).map (fun p => (p, b.members))

/-- A parsed link record.  The C++ reader (spqr_asmviz.cpp:374-429)
extracts seven whitespace-separated fields per line; only the first and
third (the two contig names) are ever consumed by graph construction,
the orientations, mean, stdev and bundle size are opaque payload, so the
embedding keeps just the two names. -/
structure LinkRec where
  a : String
  c : String
deriving DecidableEq

/-- State of graph construction: the next node id `contig_id` (starts at
1, spqr_asmviz.cpp:373), the name-to-node map `revid2contig`, the
id-to-name map `intid2contig` (both in insertion order), and the node
list of the graph G in creation order. -/
structure GBuild where
  contig_id : Nat
  revid2contig : List (String × Nat)
  intid2contig : List (Nat × String)
  gNodes : List Nat
deriving DecidableEq

/-- Registration of one contig name during the first pass
(spqr_asmviz.cpp:387-403, the identical blocks for fields a and c): a
name not yet in revid2contig allocates a new node with the current
contig_id and advances it; a known name changes nothing. -/
def registerName (st : GBuild) (nm : String) : GBuild :=
  if (st.revid2contig.lookup nm).isSome then st
  else
    { contig_id := st.contig_id + 1,
      revid2contig := st.revid2contig ++ [(nm, st.contig_id)],
      intid2contig := st.intid2contig ++ [(st.contig_id, nm)],
      gNodes := st.gNodes ++ [st.contig_id] }

/-- First pass over the input lines (spqr_asmviz.cpp:374-408).  A line is
`some r` when all seven fields parse, `none` otherwise; the `break` on a
parse failure (spqr_asmviz.cpp:382) ends the pass, so nothing after the
first malformed line is processed. -/
def pass1 : List (Option LinkRec) → GBuild → GBuild
  | [], st => st
  | none :: _, st => st
  | some r :: rest, st => pass1 rest (registerName (registerName st r.a) r.c)

/-- Second pass over the same lines (spqr_asmviz.cpp:411-429), with the
map built by the first pass: every well-formed line before the first
malformed one adds one edge between the nodes of its two names, with no
self-loop or duplicate filtering; the `break` (spqr_asmviz.cpp:420) again
ends the pass at the first malformed line.  A missing name would give the
default-constructed null node (modelled by the 0 default); both passes
stop at the same line, so this is unreachable. -/
def pass2 (st : GBuild) : List (Option LinkRec) → List (Nat × Nat)
  | [] => []
  | none :: _ => []
  | some r :: rest =>
      ((st.revid2contig.lookup r.a).getD 0, (st.revid2contig.lookup r.c).getD 0)
        :: pass2 st rest

/-- The initial graph-construction state (spqr_asmviz.cpp:372-373). -/
def initBuild : GBuild := ⟨1, [], [], []⟩

/-- The whole graph construction: node-registration pass then
edge-insertion pass over the same line list. -/
def buildGraph (lines : List (Option LinkRec)) : GBuild × List (Nat × Nat) :=
  let st := pass1 lines initBuild
  (st, pass2 st lines)

/-- Specification-side first-seen-order list of distinct names in the
well-formed prefix of the input, accumulated onto `acc`. -/
def addNew (acc : List String) (nm : String) : List String :=
  if nm ∈ acc then acc else acc ++ [nm]

/-- Specification-side: distinct contig names of the lines before the
first malformed one, in first-seen order. -/
def firstSeenNames : List (Option LinkRec) → List String → List String
  | [], acc => acc
  | none :: _, acc => acc
  | some r :: rest, acc => firstSeenNames rest (addNew (addNew acc r.a) r.c)

/-- Invariant of the graph-construction state: the registered names are
distinct, the node ids are exactly 1..n in creation order, and the next
id is n + 1. -/
def buildInv (st : GBuild) : Prop :=
  (st.revid2contig.map Prod.fst).Nodup ∧
  st.gNodes = List.range' 1 st.revid2contig.length ∧
  st.contig_id = st.revid2contig.length + 1

/-- An undirected graph on original-graph ids, as a block subgraph: node
list and edge list (each edge one unordered link, stored as an ordered
pair). -/
structure UGraph where
  nodes : List Nat
  edges : List (Nat × Nat)
deriving DecidableEq

/-- Neighbours of a node through the undirected edges. -/
def neighborsU (G : UGraph) (x : Nat) : List Nat :=
  G.edges.filterMap fun e =>
    if e.1 = x then some e.2 else if e.2 = x then some e.1 else none

/-- One breadth-first expansion step of a reachable set, restricted to the
nodes in `keep`. -/
def expandU (G : UGraph) (keep : List Nat) (cur : List Nat) : List Nat :=
  cur ++ ((cur.flatMap fun y => neighborsU G y).filter fun z =>
    decide (z ∈ keep) && !(decide (z ∈ cur)))

/-- All nodes of `keep` reachable from `x` inside `keep`: `keep.length`
expansion steps reach a fixpoint of membership. -/
def reachListU (G : UGraph) (keep : List Nat) (x : Nat) : List Nat :=
  Nat.iterate (expandU G keep) keep.length [x]

/-- Whether deleting the two nodes `u` and `v` leaves the rest of the
graph in at least two connected pieces: some two remaining nodes are not
connected inside the remaining node set. -/
def disconnectedAfter (G : UGraph) (u v : Nat) : Bool :=
  let keep := G.nodes.filter fun z => !(decide (z = u)) && !(decide (z = v))
  keep.any fun x => keep.any fun y => !(decide (y ∈ reachListU G keep x))

/-- The glossary notion of a separation pair (2-vertex cut) of a block:
removing both nodes disconnects the block into at least two pieces. -/
def isTwoCut (G : UGraph) (u v : Nat) : Prop := disconnectedAfter G u v = true

instance (G : UGraph) (u v : Nat) : Decidable (isTwoCut G u v) :=
  inferInstanceAs (Decidable (disconnectedAfter G u v = true))

/-- Concrete contig name used by witnesses. -/
def nameA : String := "A"

/-- Concrete contig name used by witnesses. -/
def nameB : String := "B"

/-- Concrete contig name used by witnesses. -/
def nameC : String := "C"

/-- Concrete contig name used by witnesses. -/
def nameD : String := "D"

/-- Unfolding of the R branch of findTwoVertexCuts. -/
theorem findTwoVertexCuts_R (sk : Skeleton) (pairs : List (Nat × Nat)) :
    findTwoVertexCuts sk strR pairs = pairs ++ virtualPairs sk.edges := by
  unfold findTwoVertexCuts
  rw [if_pos rfl]

/-- Unfolding of the P branch of findTwoVertexCuts. -/
theorem findTwoVertexCuts_P (sk : Skeleton) (pairs : List (Nat × Nat)) :
    findTwoVertexCuts sk strP pairs =
      pairs ++ (match pScan sk.edges 0 with
        | some p => [p]
        | none => []) := by
  unfold findTwoVertexCuts
  rw [if_neg (by decide), if_pos rfl]

/-- Unfolding of the S branch of findTwoVertexCuts. -/
theorem findTwoVertexCuts_S (sk : Skeleton) (pairs : List (Nat × Nat)) :
    findTwoVertexCuts sk strS pairs =
      pairs ++ virtualPairs sk.edges ++ sScanPairs sk.nodes (sAdj sk.edges) := by
  unfold findTwoVertexCuts
  rw [if_neg (by decide), if_neg (by decide), if_pos rfl]

/-- A type string other than R, P and S falls through every branch of
findTwoVertexCuts and leaves the pairs vector unchanged. -/
theorem findTwoVertexCuts_other (sk : Skeleton) (pairs : List (Nat × Nat))
    (t : String) (h1 : t ≠ strR) (h2 : t ≠ strP) (h3 : t ≠ strS) :
    findTwoVertexCuts sk t pairs = pairs := by
  unfold findTwoVertexCuts
  rw [if_neg h1, if_neg h2, if_neg h3]

/-- Membership in the virtual-edge pair list. -/
theorem mem_virtualPairs {es : List SkEdge} {p : Nat × Nat} :
    p ∈ virtualPairs es ↔ ∃ e, e ∈ es ∧ e.virt = true ∧ p = (e.src, e.tgt) := by
  induction es with
  | nil => simp [virtualPairs]
  | cons e es ih =>
    cases h : e.virt
    · simp [virtualPairs, h, ih]
    · simp [virtualPairs, h, ih]

/-- Membership in the S-branch adjacency map: the (source, target)
direction is recorded for real edges only, the (target, source) direction
for every edge. -/
theorem mem_sAdj {es : List SkEdge} {p : Nat × Nat} :
    p ∈ sAdj es ↔ (∃ e, e ∈ es ∧ e.virt = false ∧ p = (e.src, e.tgt)) ∨
      (∃ e, e ∈ es ∧ p = (e.tgt, e.src)) := by
  induction es with
  | nil => simp [sAdj]
  | cons e es ih =>
    cases h : e.virt <;> simp [sAdj, h, ih] <;> aesop

/-- Membership in the pairwise non-adjacency scan output. -/
theorem mem_sScanPairs {allnodes : List Nat} {adj : List (Nat × Nat)}
    {p : Nat × Nat} :
    p ∈ sScanPairs allnodes adj ↔ ∃ i j, i < j ∧ j < allnodes.length ∧
      ((allnodes.getD i 0, allnodes.getD j 0) ∉ adj ∨
        (allnodes.getD j 0, allnodes.getD i 0) ∉ adj) ∧
      p = (allnodes.getD i 0, allnodes.getD j 0) := by
  constructor
  · intro hp
    simp only [sScanPairs, List.mem_flatMap, List.mem_filterMap,
      List.mem_range] at hp
    obtain ⟨i, hi, j, hj, heq⟩ := hp
    by_cases hij : i < j
    · rw [if_pos hij] at heq
      by_cases hc : (allnodes.getD i 0, allnodes.getD j 0) ∉ adj ∨
          (allnodes.getD j 0, allnodes.getD i 0) ∉ adj
      · rw [if_pos hc] at heq
        exact ⟨i, j, hij, hj, hc, (Option.some_inj.mp heq).symm⟩
      · rw [if_neg hc] at heq; cases heq
    · rw [if_neg hij] at heq; cases heq
  · rintro ⟨i, j, hij, hj, hc, rfl⟩
    simp only [sScanPairs, List.mem_flatMap, List.mem_filterMap, List.mem_range]
    exact ⟨i, lt_trans hij hj, j, hj, by rw [if_pos hij, if_pos hc]⟩

/-- List.getD before the length is List.getElem. -/
theorem getD_of_lt (l : List Nat) (i : Nat) (h : i < l.length) :
    l.getD i 0 = l[i] := by
  simp [List.getD_eq_getElem?_getD, List.getElem?_eq_getElem h]

/-- The P-branch scan with a running count of at least one returns the
first remaining virtual edge. -/
theorem pScan_succ (es : List SkEdge) :
    ∀ cnt : Nat, pScan es (cnt + 1) =
      ((es.filter fun e => e.virt).head?).map fun e => (e.src, e.tgt) := by
  induction es with
  | nil => intro cnt; simp [pScan]
  | cons e es ih =>
    intro cnt
    cases h : e.virt <;> simp [pScan, h, ih]

/-- The P-branch scan started at count zero returns the second virtual
edge when one exists. -/
theorem pScan_zero (es : List SkEdge) :
    pScan es 0 = ((es.filter fun e => e.virt)[1]?).map fun e => (e.src, e.tgt) := by
  induction es with
  | nil => simp [pScan]
  | cons e es ih =>
    cases h : e.virt
    · simp [pScan, h, ih]
    · simp [pScan, h, pScan_succ, List.head?_eq_getElem?]

/-- Claim C2 (code bug): for a block-node with two outgoing BC-tree edges
whose far cut vertices are the original nodes 5 and 7, getCutVertexPair
emits the pair (5, 5), reusing the first edge for both endpoints
(spqr_asmviz.cpp:223-224 reads out1 twice and never uses out2), instead
of the pair (5, 7) built from the two distinct edges that the spec
describes. -/
theorem getCutVertexPair_two_outgoing_divergence :
    getCutVertexPair 0 [] [some 5, some 7] [] = [(5, 5)] ∧
    getCutVertexPair 0 [] [some 5, some 7] [] ≠ [(5, 7)] := by
  exact ⟨rfl, by decide⟩

/-- Claim C3 (counterexample): at the out-of-range type value 3, the
program does not fail fast: getTypeString yields the default string
"unkown" and findTwoVertexCuts silently leaves the pairs vector
unchanged, so extraction continues with a default classification. -/
theorem getTypeString_out_of_range_defaults :
    getTypeString 3 = strUnkown ∧
    findTwoVertexCuts ⟨[1, 2], [⟨1, 2, true⟩]⟩ (getTypeString 3) [(0, 0)] =
      [(0, 0)] := by
  exact ⟨rfl, rfl⟩

/-- Claim C3 (amended): for every skeleton-type value outside {0, 1, 2},
getTypeString returns the default string "unkown" and findTwoVertexCuts
emits no pair for such a skeleton and raises no error; the classification
failure is silent, not fail-fast. -/
theorem getTypeString_out_of_range_silent (t : Int)
    (h0 : t ≠ 0) (h1 : t ≠ 1) (h2 : t ≠ 2) :
    getTypeString t = strUnkown ∧
    ∀ (sk : Skeleton) (pairs : List (Nat × Nat)),
      findTwoVertexCuts sk (getTypeString t) pairs = pairs := by
  have ht : getTypeString t = strUnkown := by
    unfold getTypeString
    rw [if_neg h0, if_neg h1, if_neg h2]
  refine ⟨ht, fun sk pairs => ?_⟩
  rw [ht]
  exact findTwoVertexCuts_other sk pairs strUnkown (by decide) (by decide) (by decide)

/-- Witness for the amended C3 at the concrete type value 3. -/
theorem getTypeString_out_of_range_silent_witness :
    (3 : Int) ≠ 0 ∧ (3 : Int) ≠ 1 ∧ (3 : Int) ≠ 2 ∧
    (getTypeString 3 = strUnkown ∧
      ∀ (sk : Skeleton) (pairs : List (Nat × Nat)),
        findTwoVertexCuts sk (getTypeString 3) pairs = pairs) :=
  ⟨by decide, by decide, by decide,
    getTypeString_out_of_range_silent 3 (by decide) (by decide) (by decide)⟩

/-- Claim C7: on a Parallel-type skeleton, findTwoVertexCuts appends
exactly one pair when the skeleton has at least two virtual edges, namely
the source-target pair of the second virtual edge in scan order, and
appends nothing when it has fewer than two; in particular it never
appends more than one pair. -/
theorem parallel_rule_single_pair (sk : Skeleton) (pairs : List (Nat × Nat)) :
    (2 ≤ (sk.edges.filter fun e => e.virt).length →
      ∃ e, (sk.edges.filter fun e => e.virt)[1]? = some e ∧
        findTwoVertexCuts sk strP pairs = pairs ++ [(e.src, e.tgt)]) ∧
    ((sk.edges.filter fun e => e.virt).length < 2 →
      findTwoVertexCuts sk strP pairs = pairs) ∧
    (findTwoVertexCuts sk strP pairs).length ≤ pairs.length + 1 := by
  have hP := findTwoVertexCuts_P sk pairs
  rw [pScan_zero] at hP
  refine ⟨?_, ?_, ?_⟩
  · intro hlen
    have h1 : 1 < (sk.edges.filter fun e => e.virt).length := hlen
    refine ⟨(sk.edges.filter fun e => e.virt)[1], List.getElem?_eq_getElem h1, ?_⟩
    rw [hP, List.getElem?_eq_getElem h1]
    rfl
  · intro hlen
    rw [hP, List.getElem?_eq_none (by omega)]
    simp
  · rw [hP]
    cases h : (sk.edges.filter fun e => e.virt)[1]? <;> simp

/-- Witness for C7: a Parallel skeleton with three virtual edges yields
exactly the pair of its second virtual edge. -/
theorem parallel_rule_single_pair_witness :
    2 ≤ (([⟨1, 2, true⟩, ⟨3, 4, true⟩, ⟨5, 6, true⟩] : List SkEdge).filter
        fun e => e.virt).length ∧
    ∃ e, (([⟨1, 2, true⟩, ⟨3, 4, true⟩, ⟨5, 6, true⟩] : List SkEdge).filter
        fun e => e.virt)[1]? = some e ∧
      findTwoVertexCuts ⟨[1, 2, 3, 4, 5, 6],
          [⟨1, 2, true⟩, ⟨3, 4, true⟩, ⟨5, 6, true⟩]⟩ strP [] =
        [] ++ [(e.src, e.tgt)] :=
  ⟨by decide,
    (parallel_rule_single_pair ⟨[1, 2, 3, 4, 5, 6],
      [⟨1, 2, true⟩, ⟨3, 4, true⟩, ⟨5, 6, true⟩]⟩ []).1 (by decide)⟩

/-- Claim C1 (amended): for every B-type BC-tree node that fails the
SPQR eligibility test, the continue statement (spqr_asmviz.cpp:510) ends
the iteration before getCutVertexPair (spqr_asmviz.cpp:521) is reached,
so the cut-vertex shortcut does not run for it: the global pairs vector
and the output are left unchanged.  The shortcut runs only for blocks
passing the eligibility test. -/
theorem shortcut_skipped_for_ineligible (st : LoopState) (b : Block)
    (h0 : b.bNodeType = 0)
    (hfail : ¬ b.biconnected ∨ b.nrEdges ≤ 2 ∨ ¬ b.loopfree) :
    (processBlock st b).output = st.output ∧
    (processBlock st b).pairs = st.pairs := by
  unfold processBlock
  rw [if_pos h0, if_pos hfail]
  exact ⟨rfl, rfl⟩

/-- Witness for the amended C1: a concrete non-biconnected block with one
incoming and one outgoing BC-tree edge is left without any emitted pair. -/
theorem shortcut_skipped_for_ineligible_witness :
    (⟨0, false, 1, true, [1, 2, 3], [some 7], [some 9], []⟩ : Block).bNodeType = 0 ∧
    (¬ (⟨0, false, 1, true, [1, 2, 3], [some 7], [some 9], []⟩ : Block).biconnected ∨
      (⟨0, false, 1, true, [1, 2, 3], [some 7], [some 9], []⟩ : Block).nrEdges ≤ 2 ∨
      ¬ (⟨0, false, 1, true, [1, 2, 3], [some 7], [some 9], []⟩ : Block).loopfree) ∧
    ((processBlock ⟨[], [], []⟩
        ⟨0, false, 1, true, [1, 2, 3], [some 7], [some 9], []⟩).output =
      ([] : List ((Nat × Nat) × List Nat)) ∧
      (processBlock ⟨[], [], []⟩
        ⟨0, false, 1, true, [1, 2, 3], [some 7], [some 9], []⟩).pairs =
      ([] : List (Nat × Nat))) :=
  ⟨rfl, by decide,
    shortcut_skipped_for_ineligible ⟨[], [], []⟩
      ⟨0, false, 1, true, [1, 2, 3], [some 7], [some 9], []⟩ rfl (by decide)⟩

/-- Claim C1 (counterexample): a block-node failing the eligibility test
(not biconnected, one edge) with exactly two incident BC-tree edges
produces no output record at all when the main loop processes it, even
though getCutVertexPair applied to the same data would emit the bounding
cut-vertex pair (9, 7); hence the shortcut does not run independently of
the eligibility test. -/
theorem shortcut_depends_on_eligibility_counterexample :
    (mainLoop [⟨0, false, 1, true, [1, 2, 3], [some 7], [some 9], []⟩]).output =
      [] ∧
    (mainLoop [⟨0, false, 1, true, [1, 2, 3], [some 7], [some 9], []⟩]).pairs =
      [] ∧
    getCutVertexPair 0 [some 7] [some 9] [] = [(9, 7)] := by
  exact ⟨rfl, rfl, rfl⟩

/-- Processing one BC-tree node from a state whose global pairs vector is
empty appends exactly that node's own records to the output and leaves
the pairs vector empty again. -/
theorem processBlock_spec (st : LoopState) (b : Block) (h : st.pairs = []) :
    (processBlock st b).output = st.output ++ blockRecords b ∧
    (processBlock st b).pairs = [] := by
  unfold processBlock blockRecords blockPairs
  by_cases h0 : b.bNodeType = 0
  · rw [if_pos h0]
    by_cases hel : ¬ b.biconnected ∨ b.nrEdges ≤ 2 ∨ ¬ b.loopfree
    · rw [if_pos hel]
      have hneg : ¬ (b.bNodeType = 0 ∧
          (b.biconnected = true ∧ ¬ b.nrEdges ≤ 2 ∧ b.loopfree = true)) := by
        tauto
      rw [if_neg hneg]
      simp [h]
    · rw [if_neg hel]
      have hpos : b.bNodeType = 0 ∧
          (b.biconnected = true ∧ ¬ b.nrEdges ≤ 2 ∧ b.loopfree = true) := by
        push_neg at hel
        exact ⟨h0, by simpa using hel.1, Nat.not_le.mpr hel.2.1,
          by simpa using hel.2.2⟩
      rw [if_pos hpos]
      simp [h]
  · rw [if_neg h0]
    have hneg : ¬ (b.bNodeType = 0 ∧
        (b.biconnected = true ∧ ¬ b.nrEdges ≤ 2 ∧ b.loopfree = true)) := by
      tauto
    rw [if_neg hneg]
    simp [h]

/-- Folding the main loop from any state with an empty global pairs
vector appends every block's own records in order. -/
theorem mainLoop_fold (blocks : List Block) :
    ∀ st : LoopState, st.pairs = [] →
      (blocks.foldl processBlock st).output =
        st.output ++ blocks.flatMap blockRecords ∧
      (blocks.foldl processBlock st).pairs = [] := by
  induction blocks with
  | nil => intro st h; simp [h]
  | cons b bs ih =>
    intro st h
    obtain ⟨ho, hp⟩ := processBlock_spec st b h
    obtain ⟨ho2, hp2⟩ := ih (processBlock st b) hp
    refine ⟨?_, by rw [List.foldl_cons]; exact hp2⟩
    rw [List.foldl_cons, ho2, ho, List.flatMap_cons, List.append_assoc]

/-- Claim C4: every record the main loop writes carries the member list
of the block in which its pair was discovered - the output is exactly the
concatenation, block by block, of each block's own pairs tagged with that
same block's member set.  The shared pairs vector is empty at the start
of every block (it is cleared right after each eligible block prints, and
ineligible blocks never touch it), so no pair is ever printed under a
later block's member list. -/
theorem output_members_from_originating_block (blocks : List Block) :
    (mainLoop blocks).output = blocks.flatMap blockRecords := by
  have h := mainLoop_fold blocks ⟨[], [], []⟩ rfl
  simpa [mainLoop] using h.1

/-- Claim C6: on a Series-type skeleton, findTwoVertexCuts emits the
attachment pair of every virtual edge, and for any two distinct skeleton
nodes not joined by a real edge in either direction it emits the pair in
one of its two orientations (by the pairwise scan, or already by the
virtual-edge rule in both orientations when the two nodes are joined by
antiparallel virtual edges, whose reversed directions fill both adjacency
map entries). -/
theorem series_rule_emits (sk : Skeleton) (pairs : List (Nat × Nat)) :
    (∀ e ∈ sk.edges, e.virt = true →
      (e.src, e.tgt) ∈ findTwoVertexCuts sk strS pairs) ∧
    (∀ u v : Nat, u ∈ sk.nodes → v ∈ sk.nodes → u ≠ v →
      (∀ e ∈ sk.edges, e.virt = false →
        ¬((e.src = u ∧ e.tgt = v) ∨ (e.src = v ∧ e.tgt = u))) →
      (u, v) ∈ findTwoVertexCuts sk strS pairs ∨
        (v, u) ∈ findTwoVertexCuts sk strS pairs) := by
  rw [findTwoVertexCuts_S]
  constructor
  · intro e he hv
    have hmem : (e.src, e.tgt) ∈ virtualPairs sk.edges :=
      mem_virtualPairs.mpr ⟨e, he, hv, rfl⟩
    exact List.mem_append.mpr (Or.inl (List.mem_append.mpr (Or.inr hmem)))
  · intro u v hu hv huv hreal
    by_cases hA : (u, v) ∈ sAdj sk.edges
    · rcases mem_sAdj.mp hA with ⟨f, hf, hfv, hfe⟩ | ⟨f, hf, hfe⟩
      · rw [Prod.mk.injEq] at hfe
        exact absurd (Or.inl ⟨hfe.1.symm, hfe.2.symm⟩) (hreal f hf hfv)
      · rw [Prod.mk.injEq] at hfe
        obtain ⟨hft, hfs⟩ := hfe
        cases hfv2 : f.virt with
        | false => exact absurd (Or.inr ⟨hfs.symm, hft.symm⟩) (hreal f hf hfv2)
        | true =>
          right
          have hmem : (f.src, f.tgt) ∈ virtualPairs sk.edges :=
            mem_virtualPairs.mpr ⟨f, hf, hfv2, rfl⟩
          rw [← hfs, ← hft] at hmem
          exact List.mem_append.mpr (Or.inl (List.mem_append.mpr (Or.inr hmem)))
    · obtain ⟨i, hilen, hieq⟩ := List.mem_iff_getElem.mp hu
      obtain ⟨j, hjlen, hjeq⟩ := List.mem_iff_getElem.mp hv
      have hgi : sk.nodes.getD i 0 = u := by rw [getD_of_lt _ _ hilen, hieq]
      have hgj : sk.nodes.getD j 0 = v := by rw [getD_of_lt _ _ hjlen, hjeq]
      have hij : i ≠ j := by
        intro h
        subst h
        exact huv (hieq.symm.trans hjeq)
      rcases Nat.lt_or_ge i j with hlt | hge
      · left
        refine List.mem_append.mpr (Or.inr (mem_sScanPairs.mpr ?_))
        exact ⟨i, j, hlt, hjlen, by rw [hgi, hgj]; exact Or.inl hA,
          by rw [hgi, hgj]⟩
      · have hlt : j < i := by omega
        right
        refine List.mem_append.mpr (Or.inr (mem_sScanPairs.mpr ?_))
        exact ⟨j, i, hlt, hilen, by rw [hgi, hgj]; exact Or.inr hA,
          by rw [hgi, hgj]⟩

/-- Witness for C6: in the 4-cycle Series skeleton, the non-adjacent
diagonal pair (1, 3) is emitted in one orientation. -/
theorem series_rule_emits_witness :
    (1, 3) ∈ findTwoVertexCuts ⟨[1, 2, 3, 4],
        [⟨1, 2, false⟩, ⟨2, 3, false⟩, ⟨3, 4, false⟩, ⟨4, 1, false⟩]⟩ strS [] ∨
    (3, 1) ∈ findTwoVertexCuts ⟨[1, 2, 3, 4],
        [⟨1, 2, false⟩, ⟨2, 3, false⟩, ⟨3, 4, false⟩, ⟨4, 1, false⟩]⟩ strS [] :=
  (series_rule_emits ⟨[1, 2, 3, 4],
      [⟨1, 2, false⟩, ⟨2, 3, false⟩, ⟨3, 4, false⟩, ⟨4, 1, false⟩]⟩ []).2
    1 3 (by decide) (by decide) (by decide) (by decide)

/-- Claim C10: on a Series-type skeleton, a virtual edge whose endpoints
are distinct skeleton nodes not joined by any real edge has its endpoint
pair emitted at least twice: once by the virtual-edge rule and again by
the pairwise scan, because the adjacency map holds only the reversed
direction of a virtual edge and the scan fires when either direction is
missing (or, when an antiparallel virtual edge exists, twice by the
virtual-edge rule alone). -/
theorem series_virtual_pair_emitted_twice (sk : Skeleton) (e : SkEdge)
    (he : e ∈ sk.edges) (hv : e.virt = true)
    (hsrc : e.src ∈ sk.nodes) (htgt : e.tgt ∈ sk.nodes) (hne : e.src ≠ e.tgt)
    (hreal : ∀ f ∈ sk.edges, f.virt = false →
      ¬((f.src = e.src ∧ f.tgt = e.tgt) ∨ (f.src = e.tgt ∧ f.tgt = e.src))) :
    2 ≤ (findTwoVertexCuts sk strS []).count (e.src, e.tgt) +
      (findTwoVertexCuts sk strS []).count (e.tgt, e.src) := by
  rw [findTwoVertexCuts_S]
  simp only [List.nil_append, List.count_append]
  have hst : 0 < (virtualPairs sk.edges).count (e.src, e.tgt) :=
    List.count_pos_iff.mpr (mem_virtualPairs.mpr ⟨e, he, hv, rfl⟩)
  by_cases hap : ∃ f, f ∈ sk.edges ∧ f.virt = true ∧ f.src = e.tgt ∧ f.tgt = e.src
  · obtain ⟨f, hf, hfv, hfs, hft⟩ := hap
    have hts : 0 < (virtualPairs sk.edges).count (e.tgt, e.src) := by
      refine List.count_pos_iff.mpr (mem_virtualPairs.mpr ⟨f, hf, hfv, ?_⟩)
      rw [hfs, hft]
    omega
  · have hnadj : (e.src, e.tgt) ∉ sAdj sk.edges := by
      intro hmem
      rcases mem_sAdj.mp hmem with ⟨f, hf, hfv, hfe⟩ | ⟨f, hf, hfe⟩
      · rw [Prod.mk.injEq] at hfe
        exact hreal f hf hfv (Or.inl ⟨hfe.1.symm, hfe.2.symm⟩)
      · rw [Prod.mk.injEq] at hfe
        obtain ⟨hft, hfs⟩ := hfe
        cases hfv2 : f.virt with
        | false => exact hreal f hf hfv2 (Or.inr ⟨hfs.symm, hft.symm⟩)
        | true => exact hap ⟨f, hf, hfv2, hfs.symm, hft.symm⟩
    obtain ⟨i, hilen, hieq⟩ := List.mem_iff_getElem.mp hsrc
    obtain ⟨j, hjlen, hjeq⟩ := List.mem_iff_getElem.mp htgt
    have hgi : sk.nodes.getD i 0 = e.src := by rw [getD_of_lt _ _ hilen, hieq]
    have hgj : sk.nodes.getD j 0 = e.tgt := by rw [getD_of_lt _ _ hjlen, hjeq]
    have hij : i ≠ j := by
      intro h
      subst h
      exact hne (hieq.symm.trans hjeq)
    rcases Nat.lt_or_ge i j with hlt | hge
    · have hscan : (e.src, e.tgt) ∈ sScanPairs sk.nodes (sAdj sk.edges) :=
        mem_sScanPairs.mpr ⟨i, j, hlt, hjlen,
          by rw [hgi, hgj]; exact Or.inl hnadj, by rw [hgi, hgj]⟩
      have hc := List.count_pos_iff.mpr hscan
      omega
    · have hlt : j < i := by omega
      have hscan : (e.tgt, e.src) ∈ sScanPairs sk.nodes (sAdj sk.edges) :=
        mem_sScanPairs.mpr ⟨j, i, hlt, hilen,
          by rw [hgi, hgj]; exact Or.inr hnadj, by rw [hgi, hgj]⟩
      have hc := List.count_pos_iff.mpr hscan
      omega

/-- Witness for C10: in a Series skeleton that is a path of three real
edges closed by one virtual edge from node 4 to node 1, the pair of the
virtual edge is emitted twice, once as (4, 1) by the virtual-edge rule
and once as (1, 4) by the scan. -/
theorem series_virtual_pair_emitted_twice_witness :
    (⟨4, 1, true⟩ : SkEdge) ∈
        ([⟨1, 2, false⟩, ⟨2, 3, false⟩, ⟨3, 4, false⟩, ⟨4, 1, true⟩] :
          List SkEdge) ∧
    (⟨4, 1, true⟩ : SkEdge).virt = true ∧
    (4 : Nat) ∈ ([1, 2, 3, 4] : List Nat) ∧
    (1 : Nat) ∈ ([1, 2, 3, 4] : List Nat) ∧
    (4 : Nat) ≠ 1 ∧
    (∀ f ∈ ([⟨1, 2, false⟩, ⟨2, 3, false⟩, ⟨3, 4, false⟩, ⟨4, 1, true⟩] :
        List SkEdge), f.virt = false →
      ¬((f.src = 4 ∧ f.tgt = 1) ∨ (f.src = 1 ∧ f.tgt = 4))) ∧
    2 ≤ (findTwoVertexCuts ⟨[1, 2, 3, 4],
        [⟨1, 2, false⟩, ⟨2, 3, false⟩, ⟨3, 4, false⟩, ⟨4, 1, true⟩]⟩ strS
          []).count (4, 1) +
      (findTwoVertexCuts ⟨[1, 2, 3, 4],
        [⟨1, 2, false⟩, ⟨2, 3, false⟩, ⟨3, 4, false⟩, ⟨4, 1, true⟩]⟩ strS
          []).count (1, 4) :=
  ⟨by decide, rfl, by decide, by decide, by decide, by decide,
    series_virtual_pair_emitted_twice
      ⟨[1, 2, 3, 4], [⟨1, 2, false⟩, ⟨2, 3, false⟩, ⟨3, 4, false⟩, ⟨4, 1, true⟩]⟩
      ⟨4, 1, true⟩ (by decide) rfl (by decide) (by decide) (by decide) (by decide)⟩

/-- Claim C5: every pair emitted by the R branch or the S branch is a
2-vertex cut of the originating block.  The SPQR-tree itself is built by
the external OGDF StaticSPQRTree and is not part of this repository, so
its contract is taken as hypotheses modelled from the spec (section 4.5:
a virtual edge's attachment pair is a 2-vertex cut of the block; section
4.6: two skeleton nodes of a Series skeleton joined by no skeleton edge
are a 2-vertex cut).  Under that contract, every emitted pair is a
2-vertex cut: R pairs and the S virtual-edge pairs are attachment pairs,
and an S scan pair either has a virtual edge between its nodes (scan
condition rules out a real one) or no skeleton edge at all. -/
theorem rs_pairs_are_two_cuts (B : UGraph) (sk : Skeleton) (t : String)
    (ht : t = strR ∨ t = strS)
    (hnd : sk.nodes.Nodup)
    (hvirt : ∀ e ∈ sk.edges, e.virt = true →
      isTwoCut B e.src e.tgt ∧ isTwoCut B e.tgt e.src)
    (hnonadj : ∀ u ∈ sk.nodes, ∀ v ∈ sk.nodes, u ≠ v →
      (∀ e ∈ sk.edges, ¬((e.src = u ∧ e.tgt = v) ∨ (e.src = v ∧ e.tgt = u))) →
      isTwoCut B u v) :
    ∀ p ∈ findTwoVertexCuts sk t [], isTwoCut B p.1 p.2 := by
  intro p hp
  rcases ht with rfl | rfl
  · rw [findTwoVertexCuts_R, List.nil_append] at hp
    obtain ⟨e, he, hev, rfl⟩ := mem_virtualPairs.mp hp
    exact (hvirt e he hev).1
  · rw [findTwoVertexCuts_S, List.nil_append] at hp
    rcases List.mem_append.mp hp with hp | hp
    · obtain ⟨e, he, hev, rfl⟩ := mem_virtualPairs.mp hp
      exact (hvirt e he hev).1
    · obtain ⟨i, j, hij, hjlen, hcond, rfl⟩ := mem_sScanPairs.mp hp
      have hilen : i < sk.nodes.length := lt_trans hij hjlen
      rw [getD_of_lt _ _ hilen, getD_of_lt _ _ hjlen] at hcond
      show isTwoCut B (sk.nodes.getD i 0) (sk.nodes.getD j 0)
      rw [getD_of_lt _ _ hilen, getD_of_lt _ _ hjlen]
      have hu : sk.nodes[i] ∈ sk.nodes := List.getElem_mem hilen
      have hv2 : sk.nodes[j] ∈ sk.nodes := List.getElem_mem hjlen
      have hne : sk.nodes[i] ≠ sk.nodes[j] := by
        intro h
        exact Nat.ne_of_lt hij ((hnd.getElem_inj_iff).mp h)
      by_cases hedge : ∃ e, e ∈ sk.edges ∧ e.virt = true ∧
          ((e.src = sk.nodes[i] ∧ e.tgt = sk.nodes[j]) ∨
            (e.src = sk.nodes[j] ∧ e.tgt = sk.nodes[i]))
      · obtain ⟨e, he, hev, hor⟩ := hedge
        rcases hor with ⟨h1, h2⟩ | ⟨h1, h2⟩
        · have := (hvirt e he hev).1
          rwa [h1, h2] at this
        · have := (hvirt e he hev).2
          rwa [h1, h2] at this
      · refine hnonadj _ hu _ hv2 hne ?_
        intro e he hcontra
        cases hev : e.virt with
        | true => exact hedge ⟨e, he, hev, hcontra⟩
        | false =>
          rcases hcontra with ⟨h1, h2⟩ | ⟨h1, h2⟩
          · rcases hcond with hc | hc
            · exact hc (mem_sAdj.mpr (Or.inl ⟨e, he, hev, by rw [h1, h2]⟩))
            · exact hc (mem_sAdj.mpr (Or.inr ⟨e, he, by rw [h1, h2]⟩))
          · rcases hcond with hc | hc
            · exact hc (mem_sAdj.mpr (Or.inr ⟨e, he, by rw [h1, h2]⟩))
            · exact hc (mem_sAdj.mpr (Or.inl ⟨e, he, hev, by rw [h1, h2]⟩))

/-- Witness for C5 at the 4-cycle block of spec scenario 1: its Series
skeleton is the cycle itself with only real edges, the modelled SPQR
contract hypotheses hold by computation (the diagonals are 2-vertex
cuts), and every emitted pair is a 2-vertex cut of the block. -/
theorem rs_pairs_are_two_cuts_witness :
    (strS = strR ∨ strS = strS) ∧
    ([1, 2, 3, 4] : List Nat).Nodup ∧
    (∀ e ∈ ([⟨1, 2, false⟩, ⟨2, 3, false⟩, ⟨3, 4, false⟩, ⟨4, 1, false⟩] :
        List SkEdge), e.virt = true →
      isTwoCut ⟨[1, 2, 3, 4], [(1, 2), (2, 3), (3, 4), (4, 1)]⟩ e.src e.tgt ∧
        isTwoCut ⟨[1, 2, 3, 4], [(1, 2), (2, 3), (3, 4), (4, 1)]⟩ e.tgt e.src) ∧
    (∀ u ∈ ([1, 2, 3, 4] : List Nat), ∀ v ∈ ([1, 2, 3, 4] : List Nat), u ≠ v →
      (∀ e ∈ ([⟨1, 2, false⟩, ⟨2, 3, false⟩, ⟨3, 4, false⟩, ⟨4, 1, false⟩] :
          List SkEdge),
        ¬((e.src = u ∧ e.tgt = v) ∨ (e.src = v ∧ e.tgt = u))) →
      isTwoCut ⟨[1, 2, 3, 4], [(1, 2), (2, 3), (3, 4), (4, 1)]⟩ u v) ∧
    (∀ p ∈ findTwoVertexCuts ⟨[1, 2, 3, 4],
        [⟨1, 2, false⟩, ⟨2, 3, false⟩, ⟨3, 4, false⟩, ⟨4, 1, false⟩]⟩ strS [],
      isTwoCut ⟨[1, 2, 3, 4], [(1, 2), (2, 3), (3, 4), (4, 1)]⟩ p.1 p.2) :=
  ⟨by decide, by decide, by decide, by decide,
    rs_pairs_are_two_cuts ⟨[1, 2, 3, 4], [(1, 2), (2, 3), (3, 4), (4, 1)]⟩
      ⟨[1, 2, 3, 4], [⟨1, 2, false⟩, ⟨2, 3, false⟩, ⟨3, 4, false⟩, ⟨4, 1, false⟩]⟩
      strS (by decide) (by decide) (by decide) (by decide)⟩

/-- The first pass ignores everything from the first malformed line on. -/
theorem pass1_truncates (post : List (Option LinkRec)) :
    ∀ (pre : List (Option LinkRec)) (st : GBuild), (∀ x ∈ pre, x.isSome) →
      pass1 (pre ++ none :: post) st = pass1 pre st := by
  intro pre
  induction pre with
  | nil => intro st h; rfl
  | cons x xs ih =>
    intro st h
    cases x with
    | none =>
      have := h none (List.mem_cons_self _ _)
      simp at this
    | some r =>
      simp only [List.cons_append, pass1]
      exact ih _ (fun y hy => h y (List.mem_cons_of_mem _ hy))

/-- The second pass ignores everything from the first malformed line on. -/
theorem pass2_truncates (st : GBuild) (post : List (Option LinkRec)) :
    ∀ pre : List (Option LinkRec), (∀ x ∈ pre, x.isSome) →
      pass2 st (pre ++ none :: post) = pass2 st pre := by
  intro pre
  induction pre with
  | nil => intro h; rfl
  | cons x xs ih =>
    intro h
    cases x with
    | none =>
      have := h none (List.mem_cons_self _ _)
      simp at this
    | some r =>
      have hxs := ih (fun y hy => h y (List.mem_cons_of_mem _ hy))
      show _ :: pass2 st (xs ++ none :: post) = _ :: pass2 st xs
      rw [hxs]

/-- Claim C8: when every line before position k parses and line k is the
first malformed one, the built graph (nodes, maps and edges) is exactly
the graph built from lines 1..k-1 alone; every line after the malformed
one, well-formed or not, contributes nothing, because both reading loops
break there. -/
theorem malformed_line_truncates (pre post : List (Option LinkRec))
    (h : ∀ x ∈ pre, x.isSome) :
    buildGraph (pre ++ none :: post) = buildGraph pre := by
  have h1 := pass1_truncates post pre initBuild h
  have h2 := pass2_truncates (pass1 pre initBuild) post pre h
  simp only [buildGraph]
  rw [h1, h2]

/-- Witness for C8: one well-formed line, then a malformed line, then
another well-formed line build the same graph as the first line alone. -/
theorem malformed_line_truncates_witness :
    (∀ x ∈ [some (⟨nameA, nameB⟩ : LinkRec)], x.isSome) ∧
    buildGraph ([some (⟨nameA, nameB⟩ : LinkRec)] ++
        none :: [some (⟨nameC, nameD⟩ : LinkRec)]) =
      buildGraph [some (⟨nameA, nameB⟩ : LinkRec)] :=
  ⟨by decide, malformed_line_truncates [some ⟨nameA, nameB⟩]
    [some ⟨nameC, nameD⟩] (by decide)⟩

/-- Lookup in the name map succeeds exactly for already-registered names. -/
theorem lookup_isSome_mem_keys (l : List (String × Nat)) (nm : String) :
    (l.lookup nm).isSome ↔ nm ∈ l.map Prod.fst := by
  rw [List.lookup_isSome_iff, List.mem_map]
  constructor
  · rintro ⟨p, hp, he⟩
    exact ⟨p, hp, (beq_iff_eq.mp he).symm⟩
  · rintro ⟨p, hp, he⟩
    exact ⟨p, hp, beq_iff_eq.mpr he.symm⟩

/-- registerName preserves the construction invariant and extends the
registered names by first-seen insertion. -/
theorem registerName_spec (st : GBuild) (nm : String) (h : buildInv st) :
    buildInv (registerName st nm) ∧
    (registerName st nm).revid2contig.map Prod.fst =
      addNew (st.revid2contig.map Prod.fst) nm := by
  obtain ⟨hnd, hg, hc⟩ := h
  unfold registerName addNew
  by_cases hmem : nm ∈ st.revid2contig.map Prod.fst
  · rw [if_pos ((lookup_isSome_mem_keys _ _).mpr hmem), if_pos hmem]
    exact ⟨⟨hnd, hg, hc⟩, rfl⟩
  · rw [if_neg (fun hs => hmem ((lookup_isSome_mem_keys _ _).mp hs)),
      if_neg hmem]
    refine ⟨⟨?_, ?_, ?_⟩, ?_⟩
    · rw [List.map_append, List.nodup_append]
      refine ⟨hnd, List.nodup_singleton nm, ?_⟩
      intro a ha hb
      rw [List.mem_map] at ha
      obtain ⟨p, hp, hpa⟩ := ha
      simp only [List.map_cons, List.map_nil, List.mem_singleton] at hb
      subst hb
      exact hmem (List.mem_map.mpr ⟨p, hp, hpa⟩)
    · rw [List.length_append, hg, hc]
      simp [List.range'_1_concat, Nat.add_comm]
    · rw [List.length_append, hc]
      simp
    · rw [List.map_append]
      rfl

/-- The first pass keeps the construction invariant and registers exactly
the names of the well-formed prefix in first-seen order. -/
theorem pass1_spec (lines : List (Option LinkRec)) :
    ∀ st : GBuild, buildInv st →
      buildInv (pass1 lines st) ∧
      (pass1 lines st).revid2contig.map Prod.fst =
        firstSeenNames lines (st.revid2contig.map Prod.fst) := by
  induction lines with
  | nil => intro st h; exact ⟨h, rfl⟩
  | cons x xs ih =>
    intro st h
    cases x with
    | none => exact ⟨h, rfl⟩
    | some r =>
      obtain ⟨h1, k1⟩ := registerName_spec st r.a h
      obtain ⟨h2, k2⟩ := registerName_spec _ r.c h1
      obtain ⟨h3, k3⟩ := ih _ h2
      refine ⟨h3, ?_⟩
      show (pass1 xs _).revid2contig.map Prod.fst = _
      rw [k3, k2, k1]
      rfl

/-- The number of edges the second pass creates equals the number of
lines before the first malformed one. -/
theorem pass2_length (st : GBuild) (lines : List (Option LinkRec)) :
    (pass2 st lines).length = (lines.takeWhile fun x => x.isSome).length := by
  induction lines with
  | nil => rfl
  | cons x xs ih =>
    cases x with
    | none => rfl
    | some r =>
      show (pass2 st xs).length + 1 = _
      rw [ih]
      rfl

/-- Claim C9 (amended): graph construction allocates exactly one node per
distinct contig name of the well-formed input prefix, in first-seen order
with ids 1..n (a repeated name resolves to its existing node), and the
edge pass adds exactly one edge per well-formed line with no self-loop or
duplicate filtering, so the graph need not be simple. -/
theorem builder_one_node_per_name (lines : List (Option LinkRec)) :
    ((pass1 lines initBuild).revid2contig.map Prod.fst).Nodup ∧
    (pass1 lines initBuild).revid2contig.map Prod.fst =
      firstSeenNames lines [] ∧
    (pass1 lines initBuild).gNodes =
      List.range' 1 (pass1 lines initBuild).revid2contig.length ∧
    ((buildGraph lines).2).length =
      (lines.takeWhile fun x => x.isSome).length := by
  have hInv : buildInv initBuild := ⟨List.nodup_nil, rfl, rfl⟩
  obtain ⟨⟨hnd, hg, hc⟩, hk⟩ := pass1_spec lines initBuild hInv
  exact ⟨hnd, hk, hg, pass2_length (pass1 lines initBuild) lines⟩

/-- Claim C9 (counterexample): a record linking a contig to itself
produces a self-loop edge, and a repeated record produces two parallel
edges, so the built graph is not a simple graph. -/
theorem builder_not_simple_counterexample :
    (buildGraph [some ⟨nameA, nameA⟩]).2 = [(1, 1)] ∧
    (buildGraph [some ⟨nameA, nameB⟩, some ⟨nameA, nameB⟩]).2 =
      [(1, 2), (1, 2)] := by
  exact ⟨rfl, rfl⟩
